import Mathlib

/-!
Verification of the owl slicing core and the eigen sparse-matrix binding.

The repository ships only the declaration headers: `owl_slicing.h` declares
the traversal state records `slice_pair` and `fancy_pair` (rank, recursion
depth, per-dimension iteration counts `n`, running offsets `posx`/`posy`,
per-dimension offsets `ofsx`/`ofsy` and strides `incx`/`incy`, and for the
fancy variant the `slice` triplets and the flat `index` table), and
`libowl_eigen.h` declares the sparse-matrix handle operations.  The traversal
bodies and the binding bodies are not part of the sources, so the operations
below are modelled from the specification and named after the corresponding
declarations.
-/

/-! ## Definitions -/

/-- Error kinds of the slicing core and the handle binding. -/
inductive SliceError where
  | OutOfBounds
  | RankMismatch
  | InvalidDimensions
  | DoubleRelease
deriving DecidableEq, Repr

/-- A normalized basic slice triplet for one dimension. -/
structure Triplet where
  start : Int
  stop : Int
  step : Int
deriving DecidableEq, Repr

/-- Modelled from the spec: the triplet-derived extent of one dimension,
the number of coordinates `start + i * step` lying strictly before `stop`
(for positive step; symmetrically for negative step).  The spec's mixed
example REGULAR(0,2,1) contributing extent 2 fixes the exclusive-stop
convention. -/
def tripletCount (t : Triplet) : Nat :=
  if 0 < t.step then (((t.stop - t.start) + t.step - 1) / t.step).toNat
  else if t.step < 0 then (((t.start - t.stop) + (- t.step) - 1) / (- t.step)).toNat
  else 0

/-- Per-dimension traversal data of the basic engine, the per-dimension
slice of the `slice_pair` record: iteration count `n` (the entry of the `n`
shape array), source offset `ofsx` and stride `incx`, destination offset
`ofsy` and stride `incy`. -/
structure BDim where
  n : Nat
  ofsx : Int
  incx : Int
  ofsy : Int
  incy : Int
deriving DecidableEq, Repr

/-- Modelled from the spec: the basic slice engine (the traversal whose
state is `slice_pair`; the body is absent from the sources).  Recursive
descent over the dimensions: at each level it iterates `i` from `0` to
`n - 1`, adding `ofsx + i * incx` to the running source offset `posx` and
`ofsy + i * incy` to the running destination offset `posy`; at the base
case it copies the one element at `posx` of `x` to `posy` of `y`.
Direction is a parameter by role: `x` is always read, `y` always written. -/
def basicCopy {α : Type} (x : Int → α) : List BDim → Int → Int → (Int → α) → Int → α
  | [], posx, posy, y => fun q => if q = posy then x posx else y q
  | d :: rest, posx, posy, y =>
      (List.range d.n).foldl
        (fun (acc : Int → α) (i : Nat) =>
          basicCopy x rest (posx + d.ofsx + (i : Int) * d.incx)
            (posy + d.ofsy + (i : Int) * d.incy) acc) y

/-- The source-side linear address contributed by a multi-index. -/
def srcAddr : List BDim → List Nat → Int
  | d :: ds, i :: is => d.ofsx + (i : Int) * d.incx + srcAddr ds is
  | _, _ => 0

/-- The destination-side linear address contributed by a multi-index. -/
def dstAddr : List BDim → List Nat → Int
  | d :: ds, i :: is => d.ofsy + (i : Int) * d.incy + dstAddr ds is
  | _, _ => 0

/-- A multi-index is valid when it has one entry per dimension, each below
that dimension's iteration count. -/
def validIdx : List BDim → List Nat → Bool
  | [], [] => true
  | d :: ds, i :: is => decide (i < d.n) && validIdx ds is
  | _, _ => false

/-- The tag of one dimension of the fancy engine, the per-dimension reading
of the `slice` triplet of `fancy_pair`: a non-negative first component means
a normal slice, already turned into source offset/stride; the `-1` sentinel
means the dimension is driven by the segment `ts..te` (inclusive) of the
flat `index` table, each looked-up coordinate scaled by the natural source
stride `sstr` of that dimension. -/
inductive FTag where
  | reg (ofsx incx : Int)
  | idx (ts te sstr : Int)
deriving DecidableEq, Repr

/-- Per-dimension traversal data of the fancy engine (`fancy_pair`):
iteration count `n`, the dimension tag, and destination offset/stride. -/
structure FDim where
  n : Nat
  tag : FTag
  ofsy : Int
  incy : Int
deriving DecidableEq, Repr

/-- Source-offset contribution of iteration `i` at a fancy dimension:
a regular dimension contributes `ofsx + i * incx` as in the basic engine,
an indexed dimension contributes `tbl (ts + i) * sstr`. -/
def fStep (tbl : Int → Int) (d : FDim) (i : Nat) : Int :=
  match d.tag with
  | .reg ofsx incx => ofsx + (i : Int) * incx
  | .idx ts _ sstr => tbl (ts + (i : Int)) * sstr

/-- Modelled from the spec: the fancy slice engine (the traversal whose
state is `fancy_pair`; the body is absent from the sources).  The same
recursive descent as `basicCopy`, but at each level the source contribution
branches on the dimension's tag via `fStep`, consulting the flat index
table `tbl` for indexed dimensions. -/
def fancyCopy {α : Type} (x : Int → α) (tbl : Int → Int) :
    List FDim → Int → Int → (Int → α) → Int → α
  | [], posx, posy, y => fun q => if q = posy then x posx else y q
  | d :: rest, posx, posy, y =>
      (List.range d.n).foldl
        (fun (acc : Int → α) (i : Nat) =>
          fancyCopy x tbl rest (posx + fStep tbl d i)
            (posy + d.ofsy + (i : Int) * d.incy) acc) y

/-- The fancy source-side linear address of a multi-index. -/
def fSrcAddr (tbl : Int → Int) : List FDim → List Nat → Int
  | d :: ds, i :: is => fStep tbl d i + fSrcAddr tbl ds is
  | _, _ => 0

/-- The fancy destination-side linear address of a multi-index. -/
def fDstAddr : List FDim → List Nat → Int
  | d :: ds, i :: is => d.ofsy + (i : Int) * d.incy + fDstAddr ds is
  | _, _ => 0

/-- Validity of a multi-index against fancy dimensions. -/
def fValidIdx : List FDim → List Nat → Bool
  | [], [] => true
  | d :: ds, i :: is => decide (i < d.n) && fValidIdx ds is
  | _, _ => false

/-- Reading a basic dimension as a regular fancy dimension. -/
def bToF (d : BDim) : FDim := ⟨d.n, .reg d.ofsx d.incx, d.ofsy, d.incy⟩

/-- Row-major flat index of a natural multi-index in a shape. -/
def rmIndexN : List Nat → List Nat → Nat
  | _ :: sh, i :: is => sh.prod * i + rmIndexN sh is
  | _, _ => 0

/-- Row-major flat index of an integer coordinate vector in a shape. -/
def rmIndexZ : List Nat → List Int → Int
  | _ :: sh, c :: cs => (sh.prod : Int) * c + rmIndexZ sh cs
  | _, _ => 0

/-- A multi-index lies inside a shape. -/
def inShape : List Nat → List Nat → Bool
  | [], [] => true
  | s :: sh, i :: is => decide (i < s) && inShape sh is
  | _, _ => false

/-- The natural (row-major) stride of each dimension of a shape. -/
def rmStr : List Nat → List Int
  | [] => []
  | _ :: sh => (sh.prod : Int) :: rmStr sh

/-- Dot product of per-dimension strides with a natural multi-index. -/
def dotZ : List Int → List Nat → Int
  | s :: ss, i :: is => s * (i : Int) + dotZ ss is
  | _, _ => 0

/-- Dot product of per-dimension strides with integer coordinates. -/
def dotZZ : List Int → List Int → Int
  | s :: ss, c :: cs => s * c + dotZZ ss cs
  | _, _ => 0

/-- The source coordinates selected by triplets at a destination
multi-index: dimension `d` contributes `start + i * step`. -/
def tripletCoords : List Triplet → List Nat → List Int
  | t :: ts, i :: is => (t.start + (i : Int) * t.step) :: tripletCoords ts is
  | _, _ => []

/-- Modelled from the spec: the (absent) caller layer that turns triplets
plus the physical strides of both arrays into the `slice_pair` per-dimension
fields: `n` is the triplet-derived extent, the source offset/stride are the
triplet start/step scaled by the source's natural stride, the destination
side is dense row-major. -/
def mkBDims : List Triplet → List Int → List Int → List BDim
  | t :: ts, sx :: sxs, sy :: sys =>
      ⟨tripletCount t, t.start * sx, t.step * sx, 0, sy⟩ :: mkBDims ts sxs sys
  | _, _, _ => []

/-- Swapping the two sides of every dimension: the single traversal code
path serves both directions, `set` just exchanges which buffer's
offset/stride drive the read and which drive the write. -/
def swapXY (ds : List BDim) : List BDim :=
  ds.map fun d => ⟨d.n, d.ofsy, d.incy, d.ofsx, d.incx⟩

/-- A dense N-dimensional array: its extents and its flat row-major
buffer, a borrowed total view of the backing memory. -/
structure NdArray (α : Type) where
  shape : List Nat
  buf : Int → α

/-- Every coordinate visited by a triplet stays inside the extent. -/
def tripletOkB (ext : Nat) (t : Triplet) : Bool :=
  (List.range (tripletCount t)).all fun i =>
    decide (0 ≤ t.start + (i : Int) * t.step) &&
      decide (t.start + (i : Int) * t.step < (ext : Int))

/-- Boundary bounds check of a basic slice call: each dimension's visited
coordinates lie inside the sliced array's extent. -/
def bcheck : List Nat → List Triplet → Bool
  | e :: es, t :: ts => tripletOkB e t && bcheck es ts
  | [], [] => true
  | _, _ => false

/-- Modelled from the spec: the public basic-get operation.  All rank and
bounds checks run at the boundary, before any mutation; on success the
caller-allocated destination (row-major, of the triplet-derived shape) is
filled by the basic engine; on failure it is returned untouched together
with the distinguishable error kind. -/
def sliceGetGn {α : Type} (src : NdArray α) (ts : List Triplet) (dst : NdArray α) :
    Option SliceError × NdArray α :=
  if ts.length = src.shape.length ∧ dst.shape = ts.map tripletCount then
    if bcheck src.shape ts then
      (none, ⟨dst.shape,
        basicCopy src.buf (mkBDims ts (rmStr src.shape) (rmStr (ts.map tripletCount)))
          0 0 dst.buf⟩)
    else (some .OutOfBounds, dst)
  else (some .RankMismatch, dst)

/-- Modelled from the spec: the public basic-set operation.  The same
checks and the same engine as `sliceGetGn`, with the two sides of every
dimension exchanged: the value array is read row-major, the triplet
addresses of the destination are written. -/
def sliceSetGn {α : Type} (val : NdArray α) (ts : List Triplet) (dst : NdArray α) :
    Option SliceError × NdArray α :=
  if ts.length = dst.shape.length ∧ val.shape = ts.map tripletCount then
    if bcheck dst.shape ts then
      (none, ⟨dst.shape,
        basicCopy val.buf (swapXY (mkBDims ts (rmStr dst.shape) (rmStr (ts.map tripletCount))))
          0 0 dst.buf⟩)
    else (some .OutOfBounds, dst)
  else (some .RankMismatch, dst)

/-- A normalized fancy slice specification for one dimension: either a
regular triplet or an explicit list of source indices. -/
inductive FSpec where
  | regular (t : Triplet)
  | indexed (idxs : List Int)
deriving DecidableEq, Repr

/-- Iteration count of a fancy dimension. -/
def fCount : FSpec → Nat
  | .regular _t => tripletCount _t
  | .indexed l => l.length

/-- The flat index table: all index lists flattened in dimension order,
as the OCaml layer does before calling the fancy engine. -/
def fTable (fs : List FSpec) : List Int :=
  (fs.map fun f => match f with | .regular _ => [] | .indexed l => l).flatten

/-- The table read by the fancy engine, as a total view. -/
def tblOf (fs : List FSpec) : Int → Int :=
  fun k => (fTable fs).getD k.toNat 0

/-- Modelled from the spec: the (absent) caller layer building the
`fancy_pair` per-dimension fields: a regular dimension gets the triplet
start/step scaled by the natural source stride; an indexed dimension gets
the running table cursor pair `(c, c + len - 1)` (inclusive) and the
natural source stride; the destination side is dense row-major. -/
def mkFDims : List FSpec → List Int → List Int → Int → List FDim
  | .regular t :: fs, sx :: sxs, sy :: sys, c =>
      ⟨tripletCount t, .reg (t.start * sx) (t.step * sx), 0, sy⟩ :: mkFDims fs sxs sys c
  | .indexed l :: fs, sx :: sxs, sy :: sys, c =>
      ⟨l.length, .idx c (c + (l.length : Int) - 1) sx, 0, sy⟩ ::
        mkFDims fs sxs sys (c + (l.length : Int))
  | _, _, _, _ => []

/-- The source coordinates selected by a fancy specification at a
destination multi-index: a regular dimension contributes `start + i * step`,
an indexed dimension contributes its `i`-th listed index. -/
def fCoords : List FSpec → List Nat → List Int
  | .regular t :: fs, i :: is => (t.start + (i : Int) * t.step) :: fCoords fs is
  | .indexed l :: fs, i :: is => l.getD i 0 :: fCoords fs is
  | _, _ => []

/-- Boundary check of one fancy dimension against the sliced extent. -/
def fcheckDim (ext : Nat) : FSpec → Bool
  | .regular t => tripletOkB ext t
  | .indexed l => l.all fun v => decide (0 ≤ v) && decide (v < (ext : Int))

/-- Boundary bounds check of a fancy slice call. -/
def fcheck : List Nat → List FSpec → Bool
  | e :: es, f :: fs => fcheckDim e f && fcheck es fs
  | [], [] => true
  | _, _ => false

/-- Modelled from the spec: the public fancy-get operation, checks at the
boundary, traversal by the fancy engine over the flattened index table. -/
def fancyGetGn {α : Type} (src : NdArray α) (fs : List FSpec) (dst : NdArray α) :
    Option SliceError × NdArray α :=
  if fs.length = src.shape.length ∧ dst.shape = fs.map fCount then
    if fcheck src.shape fs then
      (none, ⟨dst.shape,
        fancyCopy src.buf (tblOf fs)
          (mkFDims fs (rmStr src.shape) (rmStr (fs.map fCount)) 0) 0 0 dst.buf⟩)
    else (some .OutOfBounds, dst)
  else (some .RankMismatch, dst)

/-- Modelled from the spec: the fancy engine run in the `set` direction:
identical control flow and addressing, the fancy-addressed buffer is now
the written one and the row-major buffer the read one. -/
def fancyWrite {α : Type} (y : Int → α) (tbl : Int → Int) :
    List FDim → Int → Int → (Int → α) → Int → α
  | [], posx, posy, x => fun q => if q = posx then y posy else x q
  | d :: rest, posx, posy, x =>
      (List.range d.n).foldl
        (fun (acc : Int → α) (i : Nat) =>
          fancyWrite y tbl rest (posx + fStep tbl d i)
            (posy + d.ofsy + (i : Int) * d.incy) acc) x

/-- Modelled from the spec: the public fancy-set operation. -/
def fancySetGn {α : Type} (val : NdArray α) (fs : List FSpec) (dst : NdArray α) :
    Option SliceError × NdArray α :=
  if fs.length = dst.shape.length ∧ val.shape = fs.map fCount then
    if fcheck dst.shape fs then
      (none, ⟨dst.shape,
        fancyWrite val.buf (tblOf fs)
          (mkFDims fs (rmStr dst.shape) (rmStr (fs.map fCount)) 0) 0 0 dst.buf⟩)
    else (some .OutOfBounds, dst)
  else (some .RankMismatch, dst)

/-- A rank-3 source of extents (2,5,1) whose flat buffer holds its own
offsets, so element values identify coordinates. -/
def exSrc : NdArray Int := ⟨[2, 5, 1], fun q => q⟩

/-- Dimension 0 REGULAR(0,2,1), dimension 1 INDEXED(3,1,4),
dimension 2 REGULAR(0,1,1). -/
def exSpec : List FSpec := [.regular ⟨0, 2, 1⟩, .indexed [3, 1, 4], .regular ⟨0, 1, 1⟩]

/-- The caller-allocated (2,3,1) destination. -/
def exDst : NdArray Int := ⟨[2, 3, 1], fun _ => 0⟩

/-- Modelled from the spec: the state behind one `eigen_spmat_d` handle
(the binding bodies are absent from the sources; `libowl_eigen.h` declares
only the operations).  Scalar entries are modelled as integers: the claims
about this binding concern shape, lifetime and aliasing, not floating-point
arithmetic. -/
structure Spmat where
  rows : Int
  cols : Int
  entries : Int → Int → Int
  compressed : Bool

/-- The handle heap of the external engine: a store of live handles and
the next fresh handle identifier. -/
structure EigenHeap where
  mem : Nat → Option Spmat
  next : Nat

/-- Well-formedness: identifiers at or above `next` are unallocated. -/
def heapWf (h : EigenHeap) : Prop := ∀ k, h.next ≤ k → h.mem k = none

/-- Modelled from the spec: `c_eigen_spmat_d_new` fails with
`InvalidDimensions` on a negative dimension, otherwise allocates a fresh
zero matrix handle. -/
def c_eigen_spmat_d_new (rows cols : Int) (h : EigenHeap) :
    Except SliceError (Nat × EigenHeap) :=
  if rows < 0 ∨ cols < 0 then .error .InvalidDimensions
  else .ok (h.next,
    ⟨fun k => if k = h.next then some ⟨rows, cols, fun _ _ => 0, false⟩ else h.mem k,
      h.next + 1⟩)

/-- Modelled from the spec: `c_eigen_spmat_d_delete` releases the handle;
releasing a dead handle is the `DoubleRelease` contract violation. -/
def c_eigen_spmat_d_delete (h : EigenHeap) (id : Nat) : Except SliceError EigenHeap :=
  match h.mem id with
  | none => .error .DoubleRelease
  | some _ => .ok ⟨fun k => if k = id then none else h.mem k, h.next⟩

/-- Modelled from the spec: row count of a live handle. -/
def c_eigen_spmat_d_rows (h : EigenHeap) (id : Nat) : Except SliceError Int :=
  match h.mem id with
  | none => .error .DoubleRelease
  | some m => .ok m.rows

/-- Modelled from the spec: column count of a live handle. -/
def c_eigen_spmat_d_cols (h : EigenHeap) (id : Nat) : Except SliceError Int :=
  match h.mem id with
  | none => .error .DoubleRelease
  | some m => .ok m.cols

/-- Modelled from the spec: element read, `OutOfBounds` outside the shape. -/
def c_eigen_spmat_d_get (h : EigenHeap) (id : Nat) (i j : Int) : Except SliceError Int :=
  match h.mem id with
  | none => .error .DoubleRelease
  | some m =>
      if 0 ≤ i ∧ i < m.rows ∧ 0 ≤ j ∧ j < m.cols then .ok (m.entries i j)
      else .error .OutOfBounds

/-- Modelled from the spec: `c_eigen_spmat_d_clone` returns a new
independently-owned deep copy under a fresh identifier. -/
def c_eigen_spmat_d_clone (h : EigenHeap) (id : Nat) :
    Except SliceError (Nat × EigenHeap) :=
  match h.mem id with
  | none => .error .DoubleRelease
  | some m => .ok (h.next, ⟨fun k => if k = h.next then some m else h.mem k, h.next + 1⟩)

/-- The mutating operations of the binding surface. -/
inductive MutOp where
  | setv (i j v : Int)
  | reset
  | reshape (r c : Int)
  | compress
  | uncompress

/-- Modelled from the spec: the per-matrix effect of each mutating
operation (an out-of-range `set` leaves the matrix unchanged after its
boundary check fails). -/
def applyOp : MutOp → Spmat → Spmat
  | .setv i j v, m =>
      if 0 ≤ i ∧ i < m.rows ∧ 0 ≤ j ∧ j < m.cols then
        { m with entries := fun a b => if a = i ∧ b = j then v else m.entries a b }
      else m
  | .reset, m => { m with entries := fun _ _ => 0 }
  | .reshape r c, m => { m with rows := r, cols := c }
  | .compress, m => { m with compressed := true }
  | .uncompress, m => { m with compressed := false }

/-- Apply one mutating operation to the handle `id` only. -/
def applyAt (op : MutOp) (id : Nat) (h : EigenHeap) : EigenHeap :=
  ⟨fun k => if k = id then (h.mem k).map (applyOp op) else h.mem k, h.next⟩

/-- Apply a whole sequence of mutating operations to the handle `id`. -/
def applyMuts (ops : List MutOp) (id : Nat) (h : EigenHeap) : EigenHeap :=
  ops.foldl (fun acc op => applyAt op id acc) h

/-- Modelled from the spec: `c_eigen_spmat_d_set` forwarded through the
heap. -/
def c_eigen_spmat_d_set (h : EigenHeap) (id : Nat) (i j v : Int) : EigenHeap :=
  applyAt (.setv i j v) id h

/-- Modelled from the spec: zero every entry. -/
def c_eigen_spmat_d_reset (h : EigenHeap) (id : Nat) : EigenHeap :=
  applyAt .reset id h

/-- Modelled from the spec: change the logical shape. -/
def c_eigen_spmat_d_reshape (h : EigenHeap) (id : Nat) (r c : Int) : EigenHeap :=
  applyAt (.reshape r c) id h

/-- Modelled from the spec: switch to compressed storage. -/
def c_eigen_spmat_d_compress (h : EigenHeap) (id : Nat) : EigenHeap :=
  applyAt .compress id h

/-- Modelled from the spec: switch to uncompressed storage. -/
def c_eigen_spmat_d_uncompress (h : EigenHeap) (id : Nat) : EigenHeap :=
  applyAt .uncompress id h

/-- Modelled from the spec: query the storage mode of a live handle. -/
def c_eigen_spmat_d_is_compressed (h : EigenHeap) (id : Nat) :
    Except SliceError Bool :=
  match h.mem id with
  | none => .error .DoubleRelease
  | some m => .ok m.compressed

/-! ## Theorems -/

/-- Folding steps that do not change the value at `q` leave `q` unchanged. -/
theorem foldlPt {α : Type} (f : (Int → α) → Nat → Int → α) (l : List Nat) (q : Int)
    (h : ∀ acc i, i ∈ l → f acc i q = acc q) :
    ∀ y : Int → α, (l.foldl f y) q = y q := by
  induction l with
  | nil => intro y; rfl
  | cons a l ih =>
      intro y
      rw [List.foldl_cons,
        ih (fun acc i hi => h acc i (List.mem_cons_of_mem a hi)) (f y a),
        h y a (List.mem_cons_self a l)]

/-- Folding steps that fix the start value produce the start value. -/
theorem foldlFix {α : Type} (f : (Int → α) → Nat → Int → α) (l : List Nat) (y : Int → α)
    (h : ∀ i ∈ l, f y i = y) : l.foldl f y = y := by
  induction l with
  | nil => rfl
  | cons a l ih =>
      rw [List.foldl_cons, h a (List.mem_cons_self a l)]
      exact ih (fun i hi => h i (List.mem_cons_of_mem a hi))

/-- Pointwise equal step functions fold equally. -/
theorem foldlCongrH {α β : Type} (f g : α → β → α) (l : List β) (y : α)
    (h : ∀ acc i, f acc i = g acc i) : l.foldl f y = l.foldl g y := by
  induction l generalizing y with
  | nil => rfl
  | cons a l ih => rw [List.foldl_cons, List.foldl_cons, h y a]; exact ih (g y a)

/-- Frame property: a flat position not addressed by any valid multi-index
is untouched by the basic traversal. -/
theorem basicCopy_frame {α : Type} (x : Int → α) (ds : List BDim) (posx posy : Int)
    (y : Int → α) (q : Int)
    (h : ∀ is, validIdx ds is = true → q ≠ posy + dstAddr ds is) :
    basicCopy x ds posx posy y q = y q := by
  induction ds generalizing posx posy y with
  | nil =>
      have hq : q ≠ posy := by
        have h0 := h [] rfl
        simpa [dstAddr] using h0
      simp [basicCopy, hq]
  | cons d rest ih =>
      rw [basicCopy]
      refine foldlPt _ _ _ (fun acc i hi => ?_) y
      have hi' : i < d.n := List.mem_range.mp hi
      refine ih (posx + d.ofsx + (i : Int) * d.incx)
        (posy + d.ofsy + (i : Int) * d.incy) acc (fun is hv => ?_)
      have hv2 : validIdx (d :: rest) (i :: is) = true := by
        simp [validIdx, hi', hv]
      intro hq
      refine h (i :: is) hv2 ?_
      rw [hq]
      simp [dstAddr]
      ring

/-- No multi-index is valid when some dimension has iteration count zero. -/
theorem validIdx_zero {ds : List BDim} {d : BDim} (hd : d ∈ ds) (hn : d.n = 0) :
    ∀ is, validIdx ds is ≠ true := by
  induction ds with
  | nil => cases hd
  | cons e rest ih =>
      intro is hv
      cases is with
      | nil => cases hd with
        | head => simp [validIdx] at hv
        | tail _ hmem => simp [validIdx] at hv
      | cons i is =>
        rw [validIdx, Bool.and_eq_true] at hv
        rcases List.mem_cons.mp hd with he | hmem
        · subst he
          have : i < d.n := of_decide_eq_true hv.1
          omega
        · exact ih hmem is hv.2

/-- A traversal containing a zero-count dimension copies nothing. -/
theorem basicCopy_zero {α : Type} (x : Int → α) (ds : List BDim) (posx posy : Int)
    (y : Int → α) {d : BDim} (hd : d ∈ ds) (hn : d.n = 0) :
    basicCopy x ds posx posy y = y := by
  funext q
  exact basicCopy_frame x ds posx posy y q
    (fun is hv => absurd hv (validIdx_zero hd hn is))

/-- Element correctness: when the destination address map is injective on
valid multi-indices, the traversal writes at each valid destination address
exactly the source element of the corresponding source address. -/
theorem basicCopy_elem {α : Type} (x : Int → α) (ds : List BDim) (posx posy : Int)
    (y : Int → α) (is : List Nat)
    (hinj : ∀ as bs, validIdx ds as = true → validIdx ds bs = true →
      dstAddr ds as = dstAddr ds bs → as = bs)
    (hv : validIdx ds is = true) :
    basicCopy x ds posx posy y (posy + dstAddr ds is) = x (posx + srcAddr ds is) := by
  induction ds generalizing posx posy y is with
  | nil =>
      cases is with
      | nil => simp [basicCopy, dstAddr, srcAddr]
      | cons i is => simp [validIdx] at hv
  | cons d rest ih =>
      cases is with
      | nil => simp [validIdx] at hv
      | cons i is =>
        rw [validIdx, Bool.and_eq_true] at hv
        have hi : i < d.n := of_decide_eq_true hv.1
        have hvr : validIdx rest is = true := hv.2
        have hinjr : ∀ as bs, validIdx rest as = true → validIdx rest bs = true →
            dstAddr rest as = dstAddr rest bs → as = bs := by
          intro as bs ha hb he
          have hc := hinj (i :: as) (i :: bs)
            (by simp [validIdx, hi, ha]) (by simp [validIdx, hi, hb])
            (by simp [dstAddr, he])
          exact (List.cons.injEq i as i bs ▸ hc).2
        obtain ⟨k, hk⟩ : ∃ k, d.n = (i + 1) + k := ⟨d.n - (i + 1), by omega⟩
        rw [basicCopy, hk, List.range_add, List.foldl_append, List.range_succ,
          List.foldl_append]
        have hstep1 :
            basicCopy x rest (posx + d.ofsx + (i : Int) * d.incx)
              (posy + d.ofsy + (i : Int) * d.incy)
              ((List.range i).foldl (fun (acc : Int → α) (j : Nat) =>
                basicCopy x rest (posx + d.ofsx + (j : Int) * d.incx)
                  (posy + d.ofsy + (j : Int) * d.incy) acc) y)
              (posy + dstAddr (d :: rest) (i :: is)) =
            x (posx + srcAddr (d :: rest) (i :: is)) := by
          have he1 : posy + dstAddr (d :: rest) (i :: is) =
              (posy + d.ofsy + (i : Int) * d.incy) + dstAddr rest is := by
            simp [dstAddr]; ring
          have he2 : posx + srcAddr (d :: rest) (i :: is) =
              (posx + d.ofsx + (i : Int) * d.incx) + srcAddr rest is := by
            simp [srcAddr]; ring
          rw [he1, he2]
          exact ih _ _ _ is hinjr hvr
        refine Eq.trans (foldlPt _ _ _ (fun acc j hj => ?_) _) (by simpa using hstep1)
        have hj' : ∃ m, m < k ∧ j = (i + 1) + m := by
          rcases List.mem_map.mp hj with ⟨m, hm, hjm⟩
          exact ⟨m, List.mem_range.mp hm, hjm.symm⟩
        rcases hj' with ⟨m, hm, hjm⟩
        refine basicCopy_frame x rest _ _ acc _ (fun js hvj => ?_)
        intro hq
        have hvj2 : validIdx (d :: rest) (j :: js) = true := by
          have : j < d.n := by omega
          simp [validIdx, this, hvj]
        have heq : dstAddr (d :: rest) (i :: is) = dstAddr (d :: rest) (j :: js) := by
          have : posy + dstAddr (d :: rest) (i :: is) =
              posy + (d.ofsy + (j : Int) * d.incy + dstAddr rest js) := by
            rw [hq]; ring
          have h2 : dstAddr (d :: rest) (j :: js) =
              d.ofsy + (j : Int) * d.incy + dstAddr rest js := rfl
          omega
        have := hinj (i :: is) (j :: js) (by simp [validIdx, hi, hvr]) hvj2 heq
        have : i = j := (List.cons.injEq i is j js ▸ this).1
        omega

/-- Writes that would store the value already present leave the whole
destination unchanged. -/
theorem basicCopy_fix {α : Type} (x : Int → α) (ds : List BDim) (posx posy : Int)
    (y : Int → α)
    (h : ∀ is, validIdx ds is = true → x (posx + srcAddr ds is) = y (posy + dstAddr ds is)) :
    basicCopy x ds posx posy y = y := by
  induction ds generalizing posx posy with
  | nil =>
      funext q
      by_cases hq : q = posy
      · subst hq
        have h0 := h [] rfl
        simp [basicCopy]
        simpa [srcAddr, dstAddr] using h0
      · simp [basicCopy, hq]
  | cons d rest ih =>
      rw [basicCopy]
      refine foldlFix _ _ _ (fun i hi => ?_)
      have hi' : i < d.n := List.mem_range.mp hi
      refine ih _ _ (fun is hv => ?_)
      have h0 := h (i :: is) (by simp [validIdx, hi', hv])
      have he1 : posx + srcAddr (d :: rest) (i :: is) =
          posx + d.ofsx + (i : Int) * d.incx + srcAddr rest is := by
        simp [srcAddr]; ring
      have he2 : posy + dstAddr (d :: rest) (i :: is) =
          posy + d.ofsy + (i : Int) * d.incy + dstAddr rest is := by
        simp [dstAddr]; ring
      rw [he1, he2] at h0
      exact h0

/-- Frame property of the fancy traversal. -/
theorem fancyCopy_frame {α : Type} (x : Int → α) (tbl : Int → Int) (ds : List FDim)
    (posx posy : Int) (y : Int → α) (q : Int)
    (h : ∀ is, fValidIdx ds is = true → q ≠ posy + fDstAddr ds is) :
    fancyCopy x tbl ds posx posy y q = y q := by
  induction ds generalizing posx posy y with
  | nil =>
      have hq : q ≠ posy := by
        have h0 := h [] rfl
        simpa [fDstAddr] using h0
      simp [fancyCopy, hq]
  | cons d rest ih =>
      rw [fancyCopy]
      refine foldlPt _ _ _ (fun acc i hi => ?_) y
      have hi' : i < d.n := List.mem_range.mp hi
      refine ih (posx + fStep tbl d i) (posy + d.ofsy + (i : Int) * d.incy) acc
        (fun is hv => ?_)
      have hv2 : fValidIdx (d :: rest) (i :: is) = true := by
        simp [fValidIdx, hi', hv]
      intro hq
      refine h (i :: is) hv2 ?_
      rw [hq]
      simp [fDstAddr]
      ring

/-- No multi-index is fancy-valid when some dimension has count zero. -/
theorem fValidIdx_zero {ds : List FDim} {d : FDim} (hd : d ∈ ds) (hn : d.n = 0) :
    ∀ is, fValidIdx ds is ≠ true := by
  induction ds with
  | nil => cases hd
  | cons e rest ih =>
      intro is hv
      cases is with
      | nil => cases hd with
        | head => simp [fValidIdx] at hv
        | tail _ hmem => simp [fValidIdx] at hv
      | cons i is =>
        rw [fValidIdx, Bool.and_eq_true] at hv
        rcases List.mem_cons.mp hd with he | hmem
        · subst he
          have : i < d.n := of_decide_eq_true hv.1
          omega
        · exact ih hmem is hv.2

/-- A fancy traversal containing a zero-count dimension copies nothing. -/
theorem fancyCopy_zero {α : Type} (x : Int → α) (tbl : Int → Int) (ds : List FDim)
    (posx posy : Int) (y : Int → α) {d : FDim} (hd : d ∈ ds) (hn : d.n = 0) :
    fancyCopy x tbl ds posx posy y = y := by
  funext q
  exact fancyCopy_frame x tbl ds posx posy y q
    (fun is hv => absurd hv (fValidIdx_zero hd hn is))

/-- Element correctness of the fancy traversal: with an injective
destination address map, each valid destination address holds the source
element whose per-dimension coordinate is the regular offset/stride value
on regular dimensions and the table lookup on indexed dimensions. -/
theorem fancyCopy_elem {α : Type} (x : Int → α) (tbl : Int → Int) (ds : List FDim)
    (posx posy : Int) (y : Int → α) (is : List Nat)
    (hinj : ∀ as bs, fValidIdx ds as = true → fValidIdx ds bs = true →
      fDstAddr ds as = fDstAddr ds bs → as = bs)
    (hv : fValidIdx ds is = true) :
    fancyCopy x tbl ds posx posy y (posy + fDstAddr ds is) =
      x (posx + fSrcAddr tbl ds is) := by
  induction ds generalizing posx posy y is with
  | nil =>
      cases is with
      | nil => simp [fancyCopy, fDstAddr, fSrcAddr]
      | cons i is => simp [fValidIdx] at hv
  | cons d rest ih =>
      cases is with
      | nil => simp [fValidIdx] at hv
      | cons i is =>
        rw [fValidIdx, Bool.and_eq_true] at hv
        have hi : i < d.n := of_decide_eq_true hv.1
        have hvr : fValidIdx rest is = true := hv.2
        have hinjr : ∀ as bs, fValidIdx rest as = true → fValidIdx rest bs = true →
            fDstAddr rest as = fDstAddr rest bs → as = bs := by
          intro as bs ha hb he
          have hc := hinj (i :: as) (i :: bs)
            (by simp [fValidIdx, hi, ha]) (by simp [fValidIdx, hi, hb])
            (by simp [fDstAddr, he])
          exact (List.cons.injEq i as i bs ▸ hc).2
        obtain ⟨k, hk⟩ : ∃ k, d.n = (i + 1) + k := ⟨d.n - (i + 1), by omega⟩
        rw [fancyCopy, hk, List.range_add, List.foldl_append, List.range_succ,
          List.foldl_append]
        have hstep1 :
            fancyCopy x tbl rest (posx + fStep tbl d i)
              (posy + d.ofsy + (i : Int) * d.incy)
              ((List.range i).foldl (fun (acc : Int → α) (j : Nat) =>
                fancyCopy x tbl rest (posx + fStep tbl d j)
                  (posy + d.ofsy + (j : Int) * d.incy) acc) y)
              (posy + fDstAddr (d :: rest) (i :: is)) =
            x (posx + fSrcAddr tbl (d :: rest) (i :: is)) := by
          have he1 : posy + fDstAddr (d :: rest) (i :: is) =
              (posy + d.ofsy + (i : Int) * d.incy) + fDstAddr rest is := by
            simp [fDstAddr]; ring
          have he2 : posx + fSrcAddr tbl (d :: rest) (i :: is) =
              (posx + fStep tbl d i) + fSrcAddr tbl rest is := by
            simp [fSrcAddr]; ring
          rw [he1, he2]
          exact ih _ _ _ is hinjr hvr
        refine Eq.trans (foldlPt _ _ _ (fun acc j hj => ?_) _) (by simpa using hstep1)
        have hj' : ∃ m, m < k ∧ j = (i + 1) + m := by
          rcases List.mem_map.mp hj with ⟨m, hm, hjm⟩
          exact ⟨m, List.mem_range.mp hm, hjm.symm⟩
        rcases hj' with ⟨m, hm, hjm⟩
        refine fancyCopy_frame x tbl rest _ _ acc _ (fun js hvj => ?_)
        intro hq
        have hvj2 : fValidIdx (d :: rest) (j :: js) = true := by
          have : j < d.n := by omega
          simp [fValidIdx, this, hvj]
        have heq : fDstAddr (d :: rest) (i :: is) = fDstAddr (d :: rest) (j :: js) := by
          have h1 : posy + fDstAddr (d :: rest) (i :: is) =
              posy + (d.ofsy + (j : Int) * d.incy + fDstAddr rest js) := by
            rw [hq]; ring
          have h2 : fDstAddr (d :: rest) (j :: js) =
              d.ofsy + (j : Int) * d.incy + fDstAddr rest js := rfl
          omega
        have hcx := hinj (i :: is) (j :: js) (by simp [fValidIdx, hi, hvr]) hvj2 heq
        have : i = j := (List.cons.injEq i is j js ▸ hcx).1
        omega

/-- With only regular dimensions the fancy engine coincides with the basic
engine, whatever the index table holds. -/
theorem fancyCopy_allreg {α : Type} (x : Int → α) (tbl : Int → Int) (ds : List BDim)
    (posx posy : Int) (y : Int → α) :
    fancyCopy x tbl (ds.map bToF) posx posy y = basicCopy x ds posx posy y := by
  induction ds generalizing posx posy y with
  | nil => rfl
  | cons d rest ih =>
      rw [List.map_cons, fancyCopy, basicCopy]
      exact foldlCongrH _ _ _ y (fun acc i => by
        have hs : fStep tbl (bToF d) i = d.ofsx + (i : Int) * d.incx := rfl
        rw [hs, ih]
        show basicCopy x rest (posx + (d.ofsx + (i : Int) * d.incx))
          (posy + d.ofsy + (i : Int) * d.incy) acc = _
        rw [← add_assoc])

/-- A shape admitting an in-shape index has positive total size. -/
theorem prod_pos_of_inShape {sh : List Nat} {is : List Nat}
    (h : inShape sh is = true) : 0 < sh.prod := by
  induction sh generalizing is with
  | nil => simp
  | cons s sh ih =>
      cases is with
      | nil => simp [inShape] at h
      | cons i is =>
          rw [inShape, Bool.and_eq_true] at h
          have h1 : i < s := of_decide_eq_true h.1
          have h2 := ih h.2
          rw [List.prod_cons]
          exact Nat.mul_pos (by omega) h2

/-- Row-major indices stay below the total size. -/
theorem rmIndexN_lt {sh : List Nat} {is : List Nat}
    (h : inShape sh is = true) : rmIndexN sh is < sh.prod := by
  induction sh generalizing is with
  | nil =>
      cases is with
      | nil => simp [rmIndexN]
      | cons i is => simp [inShape] at h
  | cons s sh ih =>
      cases is with
      | nil => simp [inShape] at h
      | cons i is =>
          rw [inShape, Bool.and_eq_true] at h
          have h1 : i < s := of_decide_eq_true h.1
          have h2 := ih h.2
          rw [rmIndexN, List.prod_cons]
          have h3 : i + 1 ≤ s := h1
          calc sh.prod * i + rmIndexN sh is
              < sh.prod * i + sh.prod := Nat.add_lt_add_left h2 _
            _ = sh.prod * (i + 1) := by ring
            _ ≤ sh.prod * s := Nat.mul_le_mul_left _ h3
            _ = s * sh.prod := Nat.mul_comm _ _

/-- Row-major indexing is injective on in-shape multi-indices. -/
theorem rmIndexN_inj {sh : List Nat} : ∀ {as bs : List Nat},
    inShape sh as = true → inShape sh bs = true →
    rmIndexN sh as = rmIndexN sh bs → as = bs := by
  induction sh with
  | nil =>
      intro as bs ha hb _
      cases as with
      | nil => cases bs with
        | nil => rfl
        | cons b bs => simp [inShape] at hb
      | cons a as => simp [inShape] at ha
  | cons s sh ih =>
      intro as bs ha hb he
      cases as with
      | nil => simp [inShape] at ha
      | cons a as =>
        cases bs with
        | nil => simp [inShape] at hb
        | cons b bs =>
          rw [inShape, Bool.and_eq_true] at ha hb
          have hP : 0 < sh.prod := prod_pos_of_inShape ha.2
          have hra : rmIndexN sh as < sh.prod := rmIndexN_lt ha.2
          have hrb : rmIndexN sh bs < sh.prod := rmIndexN_lt hb.2
          rw [rmIndexN, rmIndexN] at he
          have hab : a = b := by
            have hda : (sh.prod * a + rmIndexN sh as) / sh.prod = a := by
              rw [Nat.mul_add_div hP, Nat.div_eq_of_lt hra]
              omega
            have hdb : (sh.prod * b + rmIndexN sh bs) / sh.prod = b := by
              rw [Nat.mul_add_div hP, Nat.div_eq_of_lt hrb]
              omega
            rw [← hda, ← hdb, he]
          subst hab
          have hr : rmIndexN sh as = rmIndexN sh bs := by omega
          rw [ih ha.2 hb.2 hr]

theorem dstAddr_mkBDims : ∀ (ts : List Triplet) (sxs sys : List Int) (is : List Nat),
    ts.length = sys.length → sxs.length = sys.length →
    dstAddr (mkBDims ts sxs sys) is = dotZ sys is := by
  intro ts
  induction ts with
  | nil =>
      intro sxs sys is h1 h2
      cases sys with
      | nil => cases is <;> simp [mkBDims, dstAddr, dotZ]
      | cons sy sys => simp at h1
  | cons t ts ih =>
      intro sxs sys is h1 h2
      cases sys with
      | nil => simp at h1
      | cons sy sys =>
        cases sxs with
        | nil => simp at h2
        | cons sx sxs =>
          cases is with
          | nil => simp [mkBDims, dstAddr, dotZ]
          | cons i is =>
            simp only [mkBDims, dstAddr, dotZ]
            rw [ih sxs sys is (by simpa using h1) (by simpa using h2)]
            ring

theorem srcAddr_mkBDims : ∀ (ts : List Triplet) (sxs sys : List Int) (is : List Nat),
    ts.length = sys.length → sxs.length = sys.length →
    srcAddr (mkBDims ts sxs sys) is = dotZZ sxs (tripletCoords ts is) := by
  intro ts
  induction ts with
  | nil =>
      intro sxs sys is h1 h2
      cases sys with
      | nil => cases is <;> simp [mkBDims, srcAddr, dotZZ, tripletCoords]
      | cons sy sys => simp at h1
  | cons t ts ih =>
      intro sxs sys is h1 h2
      cases sys with
      | nil => simp at h1
      | cons sy sys =>
        cases sxs with
        | nil => simp at h2
        | cons sx sxs =>
          cases is with
          | nil => simp [mkBDims, srcAddr, dotZZ, tripletCoords]
          | cons i is =>
            simp only [mkBDims, srcAddr, dotZZ, tripletCoords]
            rw [ih sxs sys is (by simpa using h1) (by simpa using h2)]
            ring

theorem validIdx_mkBDims : ∀ (ts : List Triplet) (sxs sys : List Int) (is : List Nat),
    ts.length = sys.length → sxs.length = sys.length →
    validIdx (mkBDims ts sxs sys) is = inShape (ts.map tripletCount) is := by
  intro ts
  induction ts with
  | nil =>
      intro sxs sys is h1 h2
      cases sys with
      | nil => cases is <;> simp [mkBDims, validIdx, inShape]
      | cons sy sys => simp at h1
  | cons t ts ih =>
      intro sxs sys is h1 h2
      cases sys with
      | nil => simp at h1
      | cons sy sys =>
        cases sxs with
        | nil => simp at h2
        | cons sx sxs =>
          cases is with
          | nil => simp [mkBDims, validIdx, inShape]
          | cons i is =>
            simp only [mkBDims, validIdx, inShape, List.map_cons]
            rw [ih sxs sys is (by simpa using h1) (by simpa using h2)]

theorem dotZ_rmStr : ∀ (sh : List Nat) (is : List Nat),
    dotZ (rmStr sh) is = (rmIndexN sh is : Int) := by
  intro sh
  induction sh with
  | nil => intro is; cases is <;> simp [rmStr, dotZ, rmIndexN]
  | cons s sh ih =>
      intro is
      cases is with
      | nil => simp [rmStr, dotZ, rmIndexN]
      | cons i is =>
          simp only [rmStr, dotZ, rmIndexN]
          rw [ih]
          push_cast
          ring

theorem dotZZ_rmStr : ∀ (sh : List Nat) (cs : List Int),
    dotZZ (rmStr sh) cs = rmIndexZ sh cs := by
  intro sh
  induction sh with
  | nil => intro cs; cases cs <;> simp [rmStr, dotZZ, rmIndexZ]
  | cons s sh ih =>
      intro cs
      cases cs with
      | nil => simp [rmStr, dotZZ, rmIndexZ]
      | cons c cs =>
          simp only [rmStr, dotZZ, rmIndexZ]
          rw [ih]

theorem srcAddr_swapXY : ∀ (ds : List BDim) (is : List Nat),
    srcAddr (swapXY ds) is = dstAddr ds is := by
  intro ds
  induction ds with
  | nil => intro is; cases is <;> rfl
  | cons d rest ih =>
      intro is
      cases is with
      | nil => rfl
      | cons i is => simp only [swapXY, List.map_cons, srcAddr, dstAddr] at ih ⊢; rw [ih]

theorem dstAddr_swapXY : ∀ (ds : List BDim) (is : List Nat),
    dstAddr (swapXY ds) is = srcAddr ds is := by
  intro ds
  induction ds with
  | nil => intro is; cases is <;> rfl
  | cons d rest ih =>
      intro is
      cases is with
      | nil => rfl
      | cons i is => simp only [swapXY, List.map_cons, srcAddr, dstAddr] at ih ⊢; rw [ih]

theorem validIdx_swapXY : ∀ (ds : List BDim) (is : List Nat),
    validIdx (swapXY ds) is = validIdx ds is := by
  intro ds
  induction ds with
  | nil => intro is; cases is <;> rfl
  | cons d rest ih =>
      intro is
      cases is with
      | nil => rfl
      | cons i is => simp only [swapXY, List.map_cons, validIdx] at ih ⊢; rw [ih]

theorem rmStr_length : ∀ sh : List Nat, (rmStr sh).length = sh.length := by
  intro sh
  induction sh with
  | nil => rfl
  | cons s sh ih => simp [rmStr, ih]

/-- The destination address map of a basic get is injective on in-shape
multi-indices, hence usable with `basicCopy_elem`. -/
theorem mkBDims_inj (ts : List Triplet) (sxs : List Int) (sh : List Nat)
    (h1 : ts.length = (rmStr sh).length) (h2 : sxs.length = (rmStr sh).length)
    (hsh : sh = ts.map tripletCount) :
    ∀ as bs, validIdx (mkBDims ts sxs (rmStr sh)) as = true →
      validIdx (mkBDims ts sxs (rmStr sh)) bs = true →
      dstAddr (mkBDims ts sxs (rmStr sh)) as = dstAddr (mkBDims ts sxs (rmStr sh)) bs →
      as = bs := by
  intro as bs ha hb he
  rw [validIdx_mkBDims ts sxs (rmStr sh) as h1 h2, ← hsh] at ha
  rw [validIdx_mkBDims ts sxs (rmStr sh) bs h1 h2, ← hsh] at hb
  rw [dstAddr_mkBDims ts sxs (rmStr sh) as h1 h2,
    dstAddr_mkBDims ts sxs (rmStr sh) bs h1 h2, dotZ_rmStr, dotZ_rmStr] at he
  exact rmIndexN_inj ha hb (Nat.cast_inj.mp he)

/-- C1. For every valid source and triplet specification, a successful
`sliceGetGn` yields exactly the triplet-derived shape, and the element at
every in-shape destination multi-index equals the source element at the
triplet-mapped coordinate. -/
theorem sliceGet_shape_elem {α : Type} (src dst st : NdArray α) (ts : List Triplet)
    (h : sliceGetGn src ts dst = (none, st))
    (is : List Nat) (hv : inShape (ts.map tripletCount) is = true) :
    st.shape = ts.map tripletCount ∧
    st.buf ((rmIndexN (ts.map tripletCount) is : Int)) =
      src.buf (rmIndexZ src.shape (tripletCoords ts is)) := by
  rw [sliceGetGn] at h
  split_ifs at h with h1 h2
  · have hst : (⟨dst.shape,
        basicCopy src.buf (mkBDims ts (rmStr src.shape) (rmStr (ts.map tripletCount)))
          0 0 dst.buf⟩ : NdArray α) = st := congrArg Prod.snd h
    have hl1 : ts.length = (rmStr (ts.map tripletCount)).length := by
      rw [rmStr_length, List.length_map]
    have hl2 : (rmStr src.shape).length = (rmStr (ts.map tripletCount)).length := by
      rw [rmStr_length, rmStr_length, List.length_map, h1.1]
    have hinj := mkBDims_inj ts (rmStr src.shape) (ts.map tripletCount) hl1 hl2 rfl
    have hvv : validIdx (mkBDims ts (rmStr src.shape) (rmStr (ts.map tripletCount))) is
        = true := by
      rw [validIdx_mkBDims ts (rmStr src.shape) (rmStr (ts.map tripletCount)) is hl1 hl2]
      exact hv
    have he := basicCopy_elem src.buf
      (mkBDims ts (rmStr src.shape) (rmStr (ts.map tripletCount))) 0 0 dst.buf is hinj hvv
    rw [zero_add, zero_add,
      dstAddr_mkBDims ts (rmStr src.shape) (rmStr (ts.map tripletCount)) is hl1 hl2,
      dotZ_rmStr,
      srcAddr_mkBDims ts (rmStr src.shape) (rmStr (ts.map tripletCount)) is hl1 hl2,
      dotZZ_rmStr] at he
    refine ⟨?_, ?_⟩
    · rw [← hst]
      exact h1.2
    · rw [← hst]
      exact he
  · simp at h
  · simp at h

/-- C2. Round trip: writing a successful `sliceGetGn` result back through
`sliceSetGn` with the same specification reproduces the original array:
the sliced region is rewritten with its own values and everything outside
it is never touched. -/
theorem slice_roundtrip {α : Type} (S dst V : NdArray α) (ts : List Triplet)
    (h : sliceGetGn S ts dst = (none, V)) :
    sliceSetGn V ts S = (none, S) := by
  rw [sliceGetGn] at h
  split_ifs at h with h1 h2
  · have hV : (⟨dst.shape,
        basicCopy S.buf (mkBDims ts (rmStr S.shape) (rmStr (ts.map tripletCount)))
          0 0 dst.buf⟩ : NdArray α) = V := congrArg Prod.snd h
    have hl1 : ts.length = (rmStr (ts.map tripletCount)).length := by
      rw [rmStr_length, List.length_map]
    have hl2 : (rmStr S.shape).length = (rmStr (ts.map tripletCount)).length := by
      rw [rmStr_length, rmStr_length, List.length_map, h1.1]
    have hinj := mkBDims_inj ts (rmStr S.shape) (ts.map tripletCount) hl1 hl2 rfl
    have hVshape : V.shape = ts.map tripletCount := by
      rw [← hV]
      exact h1.2
    rw [sliceSetGn, if_pos ⟨h1.1, hVshape⟩, if_pos h2]
    have hfix : basicCopy V.buf
        (swapXY (mkBDims ts (rmStr S.shape) (rmStr (ts.map tripletCount))))
        0 0 S.buf = S.buf := by
      apply basicCopy_fix
      intro is hvi
      rw [validIdx_swapXY] at hvi
      rw [zero_add, zero_add, srcAddr_swapXY, dstAddr_swapXY]
      have he := basicCopy_elem S.buf
        (mkBDims ts (rmStr S.shape) (rmStr (ts.map tripletCount))) 0 0 dst.buf is hinj hvi
      rw [zero_add, zero_add] at he
      rw [← hV]
      exact he
    rw [hfix]
  · simp at h
  · simp at h

theorem fTable_cons_regular (t : Triplet) (fs : List FSpec) :
    fTable (.regular t :: fs) = fTable fs := by
  simp [fTable, List.map_cons, List.flatten_cons]

theorem fTable_cons_indexed (l : List Int) (fs : List FSpec) :
    fTable (.indexed l :: fs) = l ++ fTable fs := by
  simp [fTable, List.map_cons, List.flatten_cons]

theorem fDstAddr_mkFDims : ∀ (fs : List FSpec) (sxs sys : List Int) (c : Int)
    (is : List Nat), fs.length = sys.length → sxs.length = sys.length →
    fDstAddr (mkFDims fs sxs sys c) is = dotZ sys is := by
  intro fs
  induction fs with
  | nil =>
      intro sxs sys c is h1 h2
      cases sys with
      | nil => cases is <;> simp [mkFDims, fDstAddr, dotZ]
      | cons sy sys => simp at h1
  | cons f fs ih =>
      intro sxs sys c is h1 h2
      cases sys with
      | nil => simp at h1
      | cons sy sys =>
        cases sxs with
        | nil => simp at h2
        | cons sx sxs =>
          cases f with
          | regular t =>
            cases is with
            | nil => simp [mkFDims, fDstAddr, dotZ]
            | cons i is =>
              simp only [mkFDims, fDstAddr, dotZ]
              rw [ih sxs sys c is (by simpa using h1) (by simpa using h2)]
              ring
          | indexed l =>
            cases is with
            | nil => simp [mkFDims, fDstAddr, dotZ]
            | cons i is =>
              simp only [mkFDims, fDstAddr, dotZ]
              rw [ih sxs sys (c + (l.length : Int)) is (by simpa using h1)
                (by simpa using h2)]
              ring

theorem fValidIdx_mkFDims : ∀ (fs : List FSpec) (sxs sys : List Int) (c : Int)
    (is : List Nat), fs.length = sys.length → sxs.length = sys.length →
    fValidIdx (mkFDims fs sxs sys c) is = inShape (fs.map fCount) is := by
  intro fs
  induction fs with
  | nil =>
      intro sxs sys c is h1 h2
      cases sys with
      | nil => cases is <;> simp [mkFDims, fValidIdx, inShape]
      | cons sy sys => simp at h1
  | cons f fs ih =>
      intro sxs sys c is h1 h2
      cases sys with
      | nil => simp at h1
      | cons sy sys =>
        cases sxs with
        | nil => simp at h2
        | cons sx sxs =>
          cases f with
          | regular t =>
            cases is with
            | nil => simp [mkFDims, fValidIdx, inShape]
            | cons i is =>
              simp only [mkFDims, fValidIdx, inShape, List.map_cons, fCount]
              rw [ih sxs sys c is (by simpa using h1) (by simpa using h2)]
          | indexed l =>
            cases is with
            | nil => simp [mkFDims, fValidIdx, inShape]
            | cons i is =>
              simp only [mkFDims, fValidIdx, inShape, List.map_cons, fCount]
              rw [ih sxs sys (c + (l.length : Int)) is (by simpa using h1)
                (by simpa using h2)]

theorem fSrcAddr_mkFDims : ∀ (fs : List FSpec) (sxs sys : List Int) (c : Int)
    (tbl : Int → Int) (is : List Nat),
    fs.length = sys.length → sxs.length = sys.length →
    (∀ k : Nat, k < (fTable fs).length → tbl (c + (k : Int)) = (fTable fs).getD k 0) →
    fValidIdx (mkFDims fs sxs sys c) is = true →
    fSrcAddr tbl (mkFDims fs sxs sys c) is = dotZZ sxs (fCoords fs is) := by
  intro fs
  induction fs with
  | nil =>
      intro sxs sys c tbl is h1 h2 htb hv
      cases sys with
      | nil => cases is <;> simp [mkFDims, fSrcAddr, dotZZ, fCoords]
      | cons sy sys => simp at h1
  | cons f fs ih =>
      intro sxs sys c tbl is h1 h2 htb hv
      cases sys with
      | nil => simp at h1
      | cons sy sys =>
        cases sxs with
        | nil => simp at h2
        | cons sx sxs =>
          cases f with
          | regular t =>
            cases is with
            | nil => simp [mkFDims, fValidIdx] at hv
            | cons i is =>
              simp only [mkFDims, fValidIdx, Bool.and_eq_true] at hv
              simp only [mkFDims, fSrcAddr, fCoords, dotZZ]
              have hstep : fStep tbl ⟨tripletCount t, .reg (t.start * sx) (t.step * sx),
                  0, sy⟩ i = t.start * sx + (i : Int) * (t.step * sx) := rfl
              rw [hstep, ih sxs sys c tbl is (by simpa using h1) (by simpa using h2)
                (by rw [← fTable_cons_regular t fs]; exact htb) hv.2]
              ring
          | indexed l =>
            cases is with
            | nil => simp [mkFDims, fValidIdx] at hv
            | cons i is =>
              simp only [mkFDims, fValidIdx, Bool.and_eq_true] at hv
              have hi : i < l.length := of_decide_eq_true hv.1
              simp only [mkFDims, fSrcAddr, fCoords, dotZZ]
              have hstep : fStep tbl ⟨l.length,
                  .idx c (c + (l.length : Int) - 1) sx, 0, sy⟩ i =
                  tbl (c + (i : Int)) * sx := rfl
              have hlk : i < (fTable (.indexed l :: fs)).length := by
                rw [fTable_cons_indexed, List.length_append]
                omega
              have htv : tbl (c + (i : Int)) = l.getD i 0 := by
                rw [htb i hlk, fTable_cons_indexed, List.getD_append _ _ _ _ hi]
              have htb2 : ∀ k : Nat, k < (fTable fs).length →
                  tbl (c + (l.length : Int) + (k : Int)) = (fTable fs).getD k 0 := by
                intro k hk
                have hlen : (l.length + k) < (fTable (.indexed l :: fs)).length := by
                  rw [fTable_cons_indexed, List.length_append]
                  omega
                have := htb (l.length + k) hlen
                rw [fTable_cons_indexed, List.getD_append_right _ _ _ _ (by omega)] at this
                have harg : c + ((l.length + k : Nat) : Int) =
                    c + (l.length : Int) + (k : Int) := by push_cast; ring
                rw [harg] at this
                rw [this]
                congr 1
                omega
              rw [hstep, htv, ih sxs sys (c + (l.length : Int)) tbl is
                (by simpa using h1) (by simpa using h2) htb2 hv.2]
              ring

/-- The index-table view used by the public fancy operations satisfies the
cursor contract at the initial cursor `0`. -/
theorem tblOf_spec (fs : List FSpec) :
    ∀ k : Nat, k < (fTable fs).length →
      tblOf fs ((0 : Int) + (k : Int)) = (fTable fs).getD k 0 := by
  intro k _
  simp [tblOf]

/-- The table cursors of every indexed dimension built by `mkFDims` span
exactly the dimension's iteration count: `te - ts + 1 = n`. -/
theorem mkFDims_idx_count : ∀ (fs : List FSpec) (sxs sys : List Int) (c : Int)
    (d : FDim), d ∈ mkFDims fs sxs sys c → ∀ a b s, d.tag = .idx a b s →
    b - a + 1 = (d.n : Int) := by
  intro fs
  induction fs with
  | nil =>
      intro sxs sys c d hd
      simp [mkFDims] at hd
  | cons f fs ih =>
      intro sxs sys c d hd a b s htag
      cases sys with
      | nil => simp [mkFDims] at hd
      | cons sy sys =>
        cases sxs with
        | nil => simp [mkFDims] at hd
        | cons sx sxs =>
          cases f with
          | regular t =>
            rw [mkFDims] at hd
            rcases List.mem_cons.mp hd with he | hmem
            · subst he; simp at htag
            · exact ih sxs sys c d hmem a b s htag
          | indexed l =>
            rw [mkFDims] at hd
            rcases List.mem_cons.mp hd with he | hmem
            · subst he
              simp only [FTag.idx.injEq] at htag
              obtain ⟨ha, hb, _⟩ := htag
              subst ha
              rw [← hb]
              simp
              ring
            · exact ih sxs sys (c + (l.length : Int)) d hmem a b s htag

theorem mkBDims_zero : ∀ (ts : List Triplet) (sxs sys : List Int),
    ts.length = sys.length → sxs.length = sys.length →
    0 ∈ ts.map tripletCount → ∃ d ∈ mkBDims ts sxs sys, d.n = 0 := by
  intro ts
  induction ts with
  | nil => intro sxs sys h1 h2 h0; simp at h0
  | cons t ts ih =>
      intro sxs sys h1 h2 h0
      cases sys with
      | nil => simp at h1
      | cons sy sys =>
        cases sxs with
        | nil => simp at h2
        | cons sx sxs =>
          rw [List.map_cons, List.mem_cons] at h0
          rcases h0 with h0 | h0
          · exact ⟨⟨tripletCount t, t.start * sx, t.step * sx, 0, sy⟩,
              List.mem_cons_self _ _, h0.symm⟩
          · rcases ih sxs sys (by simpa using h1) (by simpa using h2) h0 with ⟨d, hd, hn⟩
            exact ⟨d, List.mem_cons_of_mem _ hd, hn⟩

theorem mkFDims_zero : ∀ (fs : List FSpec) (sxs sys : List Int) (c : Int),
    fs.length = sys.length → sxs.length = sys.length →
    0 ∈ fs.map fCount → ∃ d ∈ mkFDims fs sxs sys c, d.n = 0 := by
  intro fs
  induction fs with
  | nil => intro sxs sys c h1 h2 h0; simp at h0
  | cons f fs ih =>
      intro sxs sys c h1 h2 h0
      cases sys with
      | nil => simp at h1
      | cons sy sys =>
        cases sxs with
        | nil => simp at h2
        | cons sx sxs =>
          rw [List.map_cons, List.mem_cons] at h0
          cases f with
          | regular t =>
            rcases h0 with h0 | h0
            · exact ⟨⟨tripletCount t, .reg (t.start * sx) (t.step * sx), 0, sy⟩,
                List.mem_cons_self _ _, h0.symm⟩
            · rcases ih sxs sys c (by simpa using h1) (by simpa using h2) h0 with ⟨d, hd, hn⟩
              exact ⟨d, List.mem_cons_of_mem _ hd, hn⟩
          | indexed l =>
            rcases h0 with h0 | h0
            · exact ⟨⟨l.length, .idx c (c + (l.length : Int) - 1) sx, 0, sy⟩,
                List.mem_cons_self _ _, h0.symm⟩
            · rcases ih sxs sys (c + (l.length : Int)) (by simpa using h1)
                (by simpa using h2) h0 with ⟨d, hd, hn⟩
              exact ⟨d, List.mem_cons_of_mem _ hd, hn⟩

/-- A fancy set traversal containing a zero-count dimension writes
nothing. -/
theorem fancyWrite_zero {α : Type} (y : Int → α) (tbl : Int → Int) :
    ∀ (ds : List FDim) (posx posy : Int) (x : Int → α) (d : FDim),
    d ∈ ds → d.n = 0 → fancyWrite y tbl ds posx posy x = x := by
  intro ds
  induction ds with
  | nil => intro posx posy x d hd; cases hd
  | cons e rest ih =>
      intro posx posy x d hd hn
      rcases List.mem_cons.mp hd with he | hmem
      · subst he
        rw [fancyWrite, hn]
        rfl
      · rw [fancyWrite]
        exact foldlFix _ _ _ (fun i _ => ih _ _ x d hmem hn)

/-- The fancy analogue of `sliceGet_shape_elem`: shape fidelity plus
per-tag element mapping of a successful `fancyGetGn`. -/
theorem fancyGet_shape_elem {α : Type} (src dst st : NdArray α) (fs : List FSpec)
    (h : fancyGetGn src fs dst = (none, st))
    (is : List Nat) (hv : inShape (fs.map fCount) is = true) :
    st.shape = fs.map fCount ∧
    st.buf ((rmIndexN (fs.map fCount) is : Int)) =
      src.buf (rmIndexZ src.shape (fCoords fs is)) := by
  rw [fancyGetGn] at h
  split_ifs at h with h1 h2
  · have hst : (⟨dst.shape, fancyCopy src.buf (tblOf fs)
        (mkFDims fs (rmStr src.shape) (rmStr (fs.map fCount)) 0) 0 0 dst.buf⟩ : NdArray α)
        = st := congrArg Prod.snd h
    have hl1 : fs.length = (rmStr (fs.map fCount)).length := by
      rw [rmStr_length, List.length_map]
    have hl2 : (rmStr src.shape).length = (rmStr (fs.map fCount)).length := by
      rw [rmStr_length, rmStr_length, List.length_map, h1.1]
    have hvv : fValidIdx (mkFDims fs (rmStr src.shape) (rmStr (fs.map fCount)) 0) is
        = true := by
      rw [fValidIdx_mkFDims fs (rmStr src.shape) (rmStr (fs.map fCount)) 0 is hl1 hl2]
      exact hv
    have hinj : ∀ as bs,
        fValidIdx (mkFDims fs (rmStr src.shape) (rmStr (fs.map fCount)) 0) as = true →
        fValidIdx (mkFDims fs (rmStr src.shape) (rmStr (fs.map fCount)) 0) bs = true →
        fDstAddr (mkFDims fs (rmStr src.shape) (rmStr (fs.map fCount)) 0) as =
          fDstAddr (mkFDims fs (rmStr src.shape) (rmStr (fs.map fCount)) 0) bs →
        as = bs := by
      intro as bs ha hb he
      rw [fValidIdx_mkFDims fs (rmStr src.shape) (rmStr (fs.map fCount)) 0 as hl1 hl2] at ha
      rw [fValidIdx_mkFDims fs (rmStr src.shape) (rmStr (fs.map fCount)) 0 bs hl1 hl2] at hb
      rw [fDstAddr_mkFDims fs (rmStr src.shape) (rmStr (fs.map fCount)) 0 as hl1 hl2,
        fDstAddr_mkFDims fs (rmStr src.shape) (rmStr (fs.map fCount)) 0 bs hl1 hl2,
        dotZ_rmStr, dotZ_rmStr] at he
      exact rmIndexN_inj ha hb (Nat.cast_inj.mp he)
    have he := fancyCopy_elem src.buf (tblOf fs)
      (mkFDims fs (rmStr src.shape) (rmStr (fs.map fCount)) 0) 0 0 dst.buf is hinj hvv
    rw [zero_add, zero_add,
      fDstAddr_mkFDims fs (rmStr src.shape) (rmStr (fs.map fCount)) 0 is hl1 hl2,
      dotZ_rmStr,
      fSrcAddr_mkFDims fs (rmStr src.shape) (rmStr (fs.map fCount)) 0 (tblOf fs) is
        hl1 hl2 (tblOf_spec fs) hvv,
      dotZZ_rmStr] at he
    exact ⟨by rw [← hst]; exact h1.2, by rw [← hst]; exact he⟩
  · simp at h
  · simp at h

/-- C3.  Fancy engine semantics: (1) with only regular dimensions the
fancy engine coincides with the basic engine, whatever the table holds;
(2) every indexed dimension built by the caller layer satisfies
`tableEnd - tableStart + 1 = shape[d]`; (3) a successful fancy get has the
spec-derived shape and maps every in-shape destination index to the source
coordinate that is `start + i * step` on regular dimensions and the `i`-th
listed table index on indexed dimensions; (4) the concrete rank-3 mixed
example REGULAR(0,2,1) / INDEXED(3,1,4) / REGULAR(0,1,1) yields the
(2,3,1)-shaped result `source[i, (3,1,4)[k], 0]`. -/
theorem fancy_mixed_semantics :
    (∀ (α : Type) (x : Int → α) (tbl : Int → Int) (ds : List BDim)
        (posx posy : Int) (y : Int → α),
      fancyCopy x tbl (ds.map bToF) posx posy y = basicCopy x ds posx posy y) ∧
    (∀ (fs : List FSpec) (sxs sys : List Int) (c : Int) (d : FDim),
      d ∈ mkFDims fs sxs sys c → ∀ a b s, d.tag = .idx a b s → b - a + 1 = (d.n : Int)) ∧
    (∀ (α : Type) (src dst st : NdArray α) (fs : List FSpec),
      fancyGetGn src fs dst = (none, st) →
      ∀ is, inShape (fs.map fCount) is = true →
      st.shape = fs.map fCount ∧
      st.buf ((rmIndexN (fs.map fCount) is : Int)) =
        src.buf (rmIndexZ src.shape (fCoords fs is))) ∧
    ((fancyGetGn exSrc exSpec exDst).1 = none ∧
      (fancyGetGn exSrc exSpec exDst).2.shape = [2, 3, 1] ∧
      (List.range 6).map (fun q => (fancyGetGn exSrc exSpec exDst).2.buf (q : Int)) =
        [3, 1, 4, 8, 6, 9]) := by
  refine ⟨?_, mkFDims_idx_count, ?_, by decide, by decide, by decide⟩
  · intro α x tbl ds posx posy y
    exact fancyCopy_allreg x tbl ds posx posy y
  · intro α src dst st fs h is hv
    exact fancyGet_shape_elem src dst st fs h is hv

/-- Witness for C3: the general element theorem applied to the concrete
mixed example at destination index (1,2,0). -/
theorem fancy_mixed_semantics_witness :
    (fancyGetGn exSrc exSpec exDst).2.buf ((rmIndexN [2, 3, 1] [1, 2, 0] : Int)) =
      exSrc.buf (rmIndexZ [2, 5, 1] (fCoords exSpec [1, 2, 0])) :=
  (fancy_mixed_semantics.2.2.1 Int exSrc exDst (fancyGetGn exSrc exSpec exDst).2 exSpec
    rfl [1, 2, 0] (by decide)).2

/-- Witness for C1: the element theorem at a concrete rank-1 slice. -/
theorem sliceGet_shape_elem_witness :
    (sliceGetGn (⟨[4], fun q => q * q⟩ : NdArray Int) [⟨1, 4, 2⟩] ⟨[2], fun _ => 0⟩).2.buf
        ((rmIndexN [2] [1] : Int)) =
      (⟨[4], fun q => q * q⟩ : NdArray Int).buf
        (rmIndexZ [4] (tripletCoords [⟨1, 4, 2⟩] [1])) :=
  (sliceGet_shape_elem (⟨[4], fun q => q * q⟩ : NdArray Int) ⟨[2], fun _ => 0⟩
    (sliceGetGn (⟨[4], fun q => q * q⟩ : NdArray Int) [⟨1, 4, 2⟩] ⟨[2], fun _ => 0⟩).2
    [⟨1, 4, 2⟩] rfl [1] (by decide)).2

/-- Witness for C2: the round trip at a concrete rank-1 slice. -/
theorem slice_roundtrip_witness :
    sliceSetGn
        (sliceGetGn (⟨[4], fun q => q * q⟩ : NdArray Int) [⟨1, 4, 2⟩] ⟨[2], fun _ => 0⟩).2
        [⟨1, 4, 2⟩] ⟨[4], fun q => q * q⟩ =
      (none, ⟨[4], fun q => q * q⟩) :=
  slice_roundtrip (⟨[4], fun q => q * q⟩ : NdArray Int) ⟨[2], fun _ => 0⟩ _ [⟨1, 4, 2⟩] rfl

/-- A table value outside the sliced extent falsifies the boundary check. -/
theorem fcheck_false_of_bad : ∀ (sh : List Nat) (fs : List FSpec),
    (∃ p ∈ sh.zip fs, ∃ l, p.2 = FSpec.indexed l ∧ ∃ v ∈ l, v < 0 ∨ ((p.1 : Int) ≤ v)) →
    fcheck sh fs = false := by
  intro sh
  induction sh with
  | nil =>
      intro fs hbad
      rcases hbad with ⟨p, hp, _⟩
      simp at hp
  | cons e es ih =>
      intro fs hbad
      rcases hbad with ⟨p, hp, l, hpl, v, hvl, hv⟩
      cases fs with
      | nil => simp at hp
      | cons f fs =>
        rw [List.zip_cons_cons, List.mem_cons] at hp
        rcases hp with he | hm
        · subst he
          have hf : f = FSpec.indexed l := hpl
          subst hf
          rw [fcheck]
          have hdim : fcheckDim e (FSpec.indexed l) = false := by
            rw [fcheckDim]
            rw [List.all_eq_false]
            refine ⟨v, hvl, ?_⟩
            rcases hv with hv | hv <;> simp <;> omega
          rw [hdim]
          rfl
        · rw [fcheck]
          rw [ih fs ⟨p, hm, l, hpl, v, hvl, hv⟩]
          exact Bool.and_false _

/-- C4.  A fancy call whose index table holds, for some indexed dimension,
a value outside `[0, extent)` — in particular a value equal to the extent —
fails with `OutOfBounds`, and the written-side buffer is returned exactly
as it was given: no access past the backing buffer happens on the error
path. -/
theorem fancy_oob_rejected :
    (∀ (α : Type) (src dst : NdArray α) (fs : List FSpec),
      (∃ p ∈ src.shape.zip fs, ∃ l, p.2 = FSpec.indexed l ∧
        ∃ v ∈ l, v < 0 ∨ ((p.1 : Int) ≤ v)) →
      fs.length = src.shape.length → dst.shape = fs.map fCount →
      fancyGetGn src fs dst = (some .OutOfBounds, dst)) ∧
    (∀ (α : Type) (val dst : NdArray α) (fs : List FSpec),
      (∃ p ∈ dst.shape.zip fs, ∃ l, p.2 = FSpec.indexed l ∧
        ∃ v ∈ l, v < 0 ∨ ((p.1 : Int) ≤ v)) →
      fs.length = dst.shape.length → val.shape = fs.map fCount →
      fancySetGn val fs dst = (some .OutOfBounds, dst)) := by
  constructor
  · intro α src dst fs hbad h1 h2
    rw [fancyGetGn, if_pos ⟨h1, h2⟩,
      if_neg (by rw [fcheck_false_of_bad src.shape fs hbad]; exact Bool.false_ne_true)]
  · intro α val dst fs hbad h1 h2
    rw [fancySetGn, if_pos ⟨h1, h2⟩,
      if_neg (by rw [fcheck_false_of_bad dst.shape fs hbad]; exact Bool.false_ne_true)]

/-- Witness for C4: an indexed value equal to the extent 5 of dimension 1
is rejected on a concrete call. -/
theorem fancy_oob_rejected_witness :
    fancyGetGn exSrc [.regular ⟨0, 2, 1⟩, .indexed [5], .regular ⟨0, 1, 1⟩]
        ⟨[2, 1, 1], fun _ => 0⟩ =
      (some .OutOfBounds, ⟨[2, 1, 1], fun _ => 0⟩) :=
  fancy_oob_rejected.1 Int exSrc ⟨[2, 1, 1], fun _ => 0⟩
    [.regular ⟨0, 2, 1⟩, .indexed [5], .regular ⟨0, 1, 1⟩]
    ⟨(5, .indexed [5]), by decide, [5], rfl, 5, by decide, by omega⟩
    (by decide) (by decide)

/-- C5.  Every public slicing operation that fails — with any error kind —
returns the written-side buffer exactly as supplied: all checks run at the
boundary before the traversal, so a failing call performs no partial
write. -/
theorem failed_call_leaves_buffers :
    (∀ (α : Type) (src dst : NdArray α) (ts : List Triplet) (e : SliceError),
      (sliceGetGn src ts dst).1 = some e → (sliceGetGn src ts dst).2 = dst) ∧
    (∀ (α : Type) (val dst : NdArray α) (ts : List Triplet) (e : SliceError),
      (sliceSetGn val ts dst).1 = some e → (sliceSetGn val ts dst).2 = dst) ∧
    (∀ (α : Type) (src dst : NdArray α) (fs : List FSpec) (e : SliceError),
      (fancyGetGn src fs dst).1 = some e → (fancyGetGn src fs dst).2 = dst) ∧
    (∀ (α : Type) (val dst : NdArray α) (fs : List FSpec) (e : SliceError),
      (fancySetGn val fs dst).1 = some e → (fancySetGn val fs dst).2 = dst) := by
  refine ⟨?_, ?_, ?_, ?_⟩
  · intro α src dst ts e h
    rw [sliceGetGn] at h ⊢
    split_ifs at h ⊢ <;> rfl
  · intro α val dst ts e h
    rw [sliceSetGn] at h ⊢
    split_ifs at h ⊢ <;> rfl
  · intro α src dst fs e h
    rw [fancyGetGn] at h ⊢
    split_ifs at h ⊢ <;> rfl
  · intro α val dst fs e h
    rw [fancySetGn] at h ⊢
    split_ifs at h ⊢ <;> rfl

/-- Witness for C5: a rank-mismatched basic get fails and leaves the
destination exactly as supplied. -/
theorem failed_call_leaves_buffers_witness :
    (sliceGetGn (⟨[2], fun q => q⟩ : NdArray Int) [] ⟨[9], fun _ => 3⟩).2 =
      ⟨[9], fun _ => 3⟩ :=
  failed_call_leaves_buffers.1 Int ⟨[2], fun q => q⟩ ⟨[9], fun _ => 3⟩ []
    .RankMismatch rfl

/-- C6.  A slice call with a zero-extent dimension — including a fancy
indexed dimension whose table segment is empty — performs an empty
traversal: the written-side buffer comes back untouched and the call
succeeds; and an indexed dimension with `tableEnd < tableStart` has
iteration count zero. -/
theorem empty_traversal :
    (∀ (α : Type) (src dst : NdArray α) (ts : List Triplet),
      0 ∈ ts.map tripletCount → ts.length = src.shape.length →
      dst.shape = ts.map tripletCount → bcheck src.shape ts = true →
      sliceGetGn src ts dst = (none, dst)) ∧
    (∀ (α : Type) (val dst : NdArray α) (ts : List Triplet),
      0 ∈ ts.map tripletCount → ts.length = dst.shape.length →
      val.shape = ts.map tripletCount → bcheck dst.shape ts = true →
      sliceSetGn val ts dst = (none, dst)) ∧
    (∀ (α : Type) (src dst : NdArray α) (fs : List FSpec),
      0 ∈ fs.map fCount → fs.length = src.shape.length →
      dst.shape = fs.map fCount → fcheck src.shape fs = true →
      fancyGetGn src fs dst = (none, dst)) ∧
    (∀ (α : Type) (val dst : NdArray α) (fs : List FSpec),
      0 ∈ fs.map fCount → fs.length = dst.shape.length →
      val.shape = fs.map fCount → fcheck dst.shape fs = true →
      fancySetGn val fs dst = (none, dst)) ∧
    (∀ (fs : List FSpec) (sxs sys : List Int) (c : Int) (d : FDim),
      d ∈ mkFDims fs sxs sys c → ∀ a b s, d.tag = .idx a b s → b < a → d.n = 0) := by
  refine ⟨?_, ?_, ?_, ?_, ?_⟩
  · intro α src dst ts h0 h1 h2 hb
    rw [sliceGetGn, if_pos ⟨h1, h2⟩, if_pos hb]
    obtain ⟨d, hd, hn⟩ := mkBDims_zero ts (rmStr src.shape) (rmStr (ts.map tripletCount))
      (by rw [rmStr_length, List.length_map])
      (by rw [rmStr_length, rmStr_length, List.length_map, h1]) h0
    rw [basicCopy_zero src.buf _ 0 0 dst.buf hd hn]
  · intro α val dst ts h0 h1 h2 hb
    rw [sliceSetGn, if_pos ⟨h1, h2⟩, if_pos hb]
    obtain ⟨d, hd, hn⟩ := mkBDims_zero ts (rmStr dst.shape) (rmStr (ts.map tripletCount))
      (by rw [rmStr_length, List.length_map])
      (by rw [rmStr_length, rmStr_length, List.length_map, h1]) h0
    have hd2 : (⟨d.n, d.ofsy, d.incy, d.ofsx, d.incx⟩ : BDim) ∈
        swapXY (mkBDims ts (rmStr dst.shape) (rmStr (ts.map tripletCount))) :=
      List.mem_map_of_mem _ hd
    rw [basicCopy_zero val.buf _ 0 0 dst.buf hd2 hn]
  · intro α src dst fs h0 h1 h2 hb
    rw [fancyGetGn, if_pos ⟨h1, h2⟩, if_pos hb]
    obtain ⟨d, hd, hn⟩ := mkFDims_zero fs (rmStr src.shape) (rmStr (fs.map fCount)) 0
      (by rw [rmStr_length, List.length_map])
      (by rw [rmStr_length, rmStr_length, List.length_map, h1]) h0
    rw [fancyCopy_zero src.buf (tblOf fs) _ 0 0 dst.buf hd hn]
  · intro α val dst fs h0 h1 h2 hb
    rw [fancySetGn, if_pos ⟨h1, h2⟩, if_pos hb]
    obtain ⟨d, hd, hn⟩ := mkFDims_zero fs (rmStr dst.shape) (rmStr (fs.map fCount)) 0
      (by rw [rmStr_length, List.length_map])
      (by rw [rmStr_length, rmStr_length, List.length_map, h1]) h0
    rw [fancyWrite_zero val.buf (tblOf fs) _ 0 0 dst.buf d hd hn]
  · intro fs sxs sys c d hd a b s htag hba
    have hcount := mkFDims_idx_count fs sxs sys c d hd a b s htag
    omega

/-- Witness for C6: a zero-extent basic set on a length-3 array succeeds
and copies nothing. -/
theorem empty_traversal_witness :
    sliceSetGn (⟨[0], fun _ => 99⟩ : NdArray Int) [⟨0, 0, 1⟩] ⟨[3], fun q => q⟩ =
      (none, ⟨[3], fun q => q⟩) :=
  empty_traversal.2.1 Int ⟨[0], fun _ => 99⟩ ⟨[3], fun q => q⟩ [⟨0, 0, 1⟩]
    (by decide) (by decide) (by decide) (by decide)

/-- C7.  A rank-0 call copies exactly one element, the scalar at the base
source offset, to the base destination offset, with no per-dimension
iteration — for both engines and both directions. -/
theorem rank0_scalar :
    (∀ (α : Type) (src dst : NdArray α), src.shape = [] → dst.shape = [] →
      sliceGetGn src [] dst =
        (none, ⟨[], fun q => if q = 0 then src.buf 0 else dst.buf q⟩)) ∧
    (∀ (α : Type) (val dst : NdArray α), dst.shape = [] → val.shape = [] →
      sliceSetGn val [] dst =
        (none, ⟨[], fun q => if q = 0 then val.buf 0 else dst.buf q⟩)) ∧
    (∀ (α : Type) (src dst : NdArray α), src.shape = [] → dst.shape = [] →
      fancyGetGn src [] dst =
        (none, ⟨[], fun q => if q = 0 then src.buf 0 else dst.buf q⟩)) ∧
    (∀ (α : Type) (val dst : NdArray α), dst.shape = [] → val.shape = [] →
      fancySetGn val [] dst =
        (none, ⟨[], fun q => if q = 0 then val.buf 0 else dst.buf q⟩)) := by
  refine ⟨?_, ?_, ?_, ?_⟩
  · intro α src dst hs hd
    rw [sliceGetGn, if_pos ⟨by rw [hs]; rfl, by rw [hd]; rfl⟩, if_pos (by rw [hs]; rfl)]
    rw [hd]
    rfl
  · intro α val dst hd hv
    rw [sliceSetGn, if_pos ⟨by rw [hd]; rfl, by rw [hv]; rfl⟩, if_pos (by rw [hd]; rfl)]
    rw [hd]
    rfl
  · intro α src dst hs hd
    rw [fancyGetGn, if_pos ⟨by rw [hs]; rfl, by rw [hd]; rfl⟩, if_pos (by rw [hs]; rfl)]
    rw [hd]
    rfl
  · intro α val dst hd hv
    rw [fancySetGn, if_pos ⟨by rw [hd]; rfl, by rw [hv]; rfl⟩, if_pos (by rw [hd]; rfl)]
    rw [hd]
    rfl

/-- Witness for C7: the rank-0 basic get on a concrete scalar array. -/
theorem rank0_scalar_witness :
    sliceGetGn (⟨[], fun _ => 7⟩ : NdArray Int) [] ⟨[], fun _ => 0⟩ =
      (none, ⟨[], fun q => if q = 0 then (fun _ => (7 : Int)) 0 else (fun _ => (0 : Int)) q⟩) :=
  rank0_scalar.1 Int ⟨[], fun _ => 7⟩ ⟨[], fun _ => 0⟩ rfl rfl

/-- C8.  Handle creation fails with `InvalidDimensions` exactly on a
negative dimension; otherwise the accessors return the creation
arguments. -/
theorem create_dims :
    (∀ (rows cols : Int) (h : EigenHeap), rows < 0 ∨ cols < 0 →
      c_eigen_spmat_d_new rows cols h = .error .InvalidDimensions) ∧
    (∀ (rows cols : Int) (h : EigenHeap) (id : Nat) (h2 : EigenHeap),
      0 ≤ rows → 0 ≤ cols → c_eigen_spmat_d_new rows cols h = .ok (id, h2) →
      c_eigen_spmat_d_rows h2 id = .ok rows ∧ c_eigen_spmat_d_cols h2 id = .ok cols) := by
  constructor
  · intro rows cols h hneg
    rw [c_eigen_spmat_d_new, if_pos hneg]
  · intro rows cols h id h2 hr hc hok
    rw [c_eigen_spmat_d_new, if_neg (by omega)] at hok
    have hpair := Except.ok.inj hok
    injection hpair with hid hh
    subst hid
    subst hh
    constructor
    · simp [c_eigen_spmat_d_rows]
    · simp [c_eigen_spmat_d_cols]

/-- Witness for C8: creating with a negative row count fails, and
create(3,4) then rows/cols yields 3 and 4. -/
theorem create_dims_witness :
    c_eigen_spmat_d_new (-1) 4 ⟨fun _ => none, 0⟩ = .error .InvalidDimensions ∧
    (c_eigen_spmat_d_rows
        ⟨fun k => if k = 0 then some ⟨3, 4, fun _ _ => 0, false⟩ else none, 1⟩ 0 = .ok 3 ∧
      c_eigen_spmat_d_cols
        ⟨fun k => if k = 0 then some ⟨3, 4, fun _ _ => 0, false⟩ else none, 1⟩ 0 = .ok 4) :=
  ⟨create_dims.1 (-1) 4 ⟨fun _ => none, 0⟩ (by omega),
    create_dims.2 3 4 ⟨fun _ => none, 0⟩ 0
      ⟨fun k => if k = 0 then some ⟨3, 4, fun _ _ => 0, false⟩ else none, 1⟩
      (by omega) (by omega) rfl⟩

/-- A mutation sequence targeted at one handle never touches another. -/
theorem applyMuts_other : ∀ (ops : List MutOp) (id : Nat) (h : EigenHeap) (k : Nat),
    k ≠ id → (applyMuts ops id h).mem k = h.mem k := by
  intro ops
  induction ops with
  | nil => intro id h k hk; rfl
  | cons op ops ih =>
      intro id h k hk
      have hstep : applyMuts (op :: ops) id h = applyMuts ops id (applyAt op id h) := rfl
      rw [hstep, ih id _ k hk]
      show (if k = id then (h.mem k).map (applyOp op) else h.mem k) = h.mem k
      rw [if_neg hk]

/-- C9.  A clone is an independently-owned deep copy: after cloning, any
sequence of mutations applied to one of the two handles leaves every `get`
result of the other unchanged. -/
theorem clone_independent (h : EigenHeap) (id : Nat) (m : Spmat) (id2 : Nat)
    (h2 : EigenHeap) (hwf : heapWf h) (hm : h.mem id = some m)
    (hc : c_eigen_spmat_d_clone h id = .ok (id2, h2)) :
    (∀ (ops : List MutOp) (i j : Int),
      c_eigen_spmat_d_get (applyMuts ops id2 h2) id i j = c_eigen_spmat_d_get h id i j) ∧
    (∀ (ops : List MutOp) (i j : Int),
      c_eigen_spmat_d_get (applyMuts ops id h2) id2 i j =
        c_eigen_spmat_d_get h2 id2 i j) := by
  rw [c_eigen_spmat_d_clone, hm] at hc
  have hpair := Except.ok.inj hc
  injection hpair with hid2 hh2
  have hidlt : id < h.next := by
    by_contra hcon
    push_neg at hcon
    rw [hwf id hcon] at hm
    exact Option.noConfusion hm
  constructor
  · intro ops i j
    have hne : id ≠ id2 := by omega
    have hmem : (applyMuts ops id2 h2).mem id = h.mem id := by
      rw [applyMuts_other ops id2 h2 id hne, ← hh2]
      show (if id = h.next then some m else h.mem id) = h.mem id
      rw [if_neg (by omega)]
    simp only [c_eigen_spmat_d_get, hmem]
  · intro ops i j
    have hne : id2 ≠ id := by omega
    have hmem : (applyMuts ops id h2).mem id2 = h2.mem id2 :=
      applyMuts_other ops id h2 id2 hne
    simp only [c_eigen_spmat_d_get, hmem]

/-- Witness for C9: on a concrete one-handle heap, setting an entry of the
clone leaves the original's `get` unchanged. -/
theorem clone_independent_witness :
    c_eigen_spmat_d_get (applyMuts [.setv 0 0 5] 1
        ⟨fun k => if k = 1 then some ⟨2, 2, fun _ _ => 0, false⟩
          else (if k = 0 then some ⟨2, 2, fun _ _ => 0, false⟩ else none), 2⟩) 0 0 0 =
      c_eigen_spmat_d_get
        ⟨fun k => if k = 0 then some ⟨2, 2, fun _ _ => 0, false⟩ else none, 1⟩ 0 0 0 :=
  (clone_independent ⟨fun k => if k = 0 then some ⟨2, 2, fun _ _ => 0, false⟩ else none, 1⟩
    0 ⟨2, 2, fun _ _ => 0, false⟩ 1
    ⟨fun k => if k = 1 then some ⟨2, 2, fun _ _ => 0, false⟩
      else (if k = 0 then some ⟨2, 2, fun _ _ => 0, false⟩ else none), 2⟩
    (fun k hk => if_neg (fun heq => absurd (heq ▸ hk) (by decide))) rfl rfl).1
    [.setv 0 0 5] 0 0

/-- C10.  Every slicing entry point is deterministic: equal inputs — same
buffers, shapes, specifications and tables — produce equal outputs,
including identical error kinds on failure; no hidden state is consulted. -/
theorem deterministic_entry_points (α : Type) (a1 a2 d1 d2 v1 v2 w1 w2 : NdArray α)
    (t1 t2 : List Triplet) (f1 f2 : List FSpec)
    (ha : a1 = a2) (hd : d1 = d2) (ht : t1 = t2) (hv : v1 = v2) (hw : w1 = w2)
    (hf : f1 = f2) :
    sliceGetGn a1 t1 d1 = sliceGetGn a2 t2 d2 ∧
    sliceSetGn v1 t1 w1 = sliceSetGn v2 t2 w2 ∧
    fancyGetGn a1 f1 d1 = fancyGetGn a2 f2 d2 ∧
    fancySetGn v1 f1 w1 = fancySetGn v2 f2 w2 := by
  subst ha hd ht hv hw hf
  exact ⟨rfl, rfl, rfl, rfl⟩

/-- Witness for C10: the determinism theorem applied at concrete inputs. -/
theorem deterministic_entry_points_witness :
    sliceGetGn exSrc [] exDst = sliceGetGn exSrc [] exDst ∧
    sliceSetGn exSrc [] exDst = sliceSetGn exSrc [] exDst ∧
    fancyGetGn exSrc exSpec exDst = fancyGetGn exSrc exSpec exDst ∧
    fancySetGn exSrc exSpec exDst = fancySetGn exSrc exSpec exDst :=
  deterministic_entry_points Int exSrc exSrc exDst exDst exSrc exSrc exDst exDst
    [] [] exSpec exSpec rfl rfl rfl rfl rfl rfl
